import Mathlib

/-!
Shallow embedding of the pybrary-of-babel sources (generate.py, runner.py,
experiment.py) and proofs about the claims of its specification.

Programs are modelled as lists of character codes (Python `ord`/`chr` values),
identifiers as arbitrary-precision integers (`Int`), and hex strings as Lean
strings.  Python `//` and `%` on integers are floor division; for the positive
divisors used throughout they coincide with `Int./` and `Int.%` (Euclidean
division), which this file uses.
-/

deriving instance DecidableEq for Except

namespace PybraryOfBabel

/-- Hexadecimal digit character for a value below 16, lowercase, as produced by
Python `hex()` and `bytes.hex()`. -/
def hexDigitChar (n : Nat) : Char :=
  if n < 10 then Char.ofNat (48 + n) else Char.ofNat (87 + n)

/-- Numeric value of a hexadecimal digit character, either case, as accepted by
Python `int(_, 16)`. -/
def hexDigitVal (c : Char) : Option Nat :=
  if 48 ≤ c.toNat ∧ c.toNat ≤ 57 then some (c.toNat - 48)
  else if 97 ≤ c.toNat ∧ c.toNat ≤ 102 then some (c.toNat - 87)
  else if 65 ≤ c.toNat ∧ c.toNat ≤ 70 then some (c.toNat - 55)
  else none

/-- Little-endian base-16 digits of a natural number; the first argument is
fuel, always instantiated at the number itself, so that the recursion is
structural. -/
def natHexDigitsAux : Nat → Nat → List Nat
  | 0, _ => []
  | _ + 1, 0 => []
  | fuel + 1, n + 1 => ((n + 1) % 16) :: natHexDigitsAux fuel ((n + 1) / 16)

/-- Little-endian base-16 digits of a natural number, empty for zero. -/
def natHexDigits (n : Nat) : List Nat := natHexDigitsAux n n

/-- Digit characters of Python `hex(n)` for nonnegative `n`, most significant
digit first, `"0"` for zero. -/
def natToHexChars (n : Nat) : List Char :=
  if n = 0 then ['0'] else (natHexDigits n).reverse.map hexDigitChar

/-- Python's `hex()` builtin on an arbitrary-precision integer: lowercase
digits, `0x`-prefixed, a leading minus sign for negative values, no leading
zeros beyond the single digit of zero itself. -/
def pythonHex (n : Int) : String :=
  if n < 0 then String.mk ('-' :: '0' :: 'x' :: natToHexChars n.natAbs)
  else String.mk ('0' :: 'x' :: natToHexChars n.natAbs)

/-- Big-endian accumulation of hexadecimal digit characters; `none` at the
first character that is not a hexadecimal digit. -/
def parseHexDigitsAux (acc : Nat) : List Char → Option Nat
  | [] => some acc
  | c :: rest =>
    match hexDigitVal c with
    | none => none
    | some v => parseHexDigitsAux (acc * 16 + v) rest

/-- Parse a nonempty list of hexadecimal digit characters; the empty list
fails, as `int("", 16)` raises. -/
def parseHexNat (l : List Char) : Option Nat :=
  match l with
  | [] => none
  | c :: rest => parseHexDigitsAux 0 (c :: rest)

/-- Hexadecimal digits with an optional `0x` / `0X` marker, as `int(_, 16)`
accepts. -/
def parseHexBody (l : List Char) : Option Nat :=
  match l with
  | c0 :: c1 :: rest =>
    if c0 = '0' ∧ (c1 = 'x' ∨ c1 = 'X') then parseHexNat rest
    else parseHexNat (c0 :: c1 :: rest)
  | _ => parseHexNat l

/-- Python's `int(s, 16)` on the strings this system produces: an optional
minus sign, an optional `0x` marker, then hexadecimal digits of either case;
the result is an arbitrary-precision integer, `none` where Python raises
`ValueError`. -/
def parseHex (s : String) : Option Int :=
  match s.data with
  | [] => none
  | c :: rest =>
    if c = '-' then Option.map (fun v : Nat => -(v : Int)) (parseHexBody rest)
    else Option.map (fun v : Nat => (v : Int)) (parseHexBody (c :: rest))

/-- Division loop of `hex_to_program` (generate.py lines 116-120): repeatedly
take the remainder and quotient by `ascii_range`, emitting
`chr(ascii_min + char_index)`. -/
def hexToProgramNum (programNumber : Int) (programLength asciiRange asciiMin : Nat) :
    List Nat :=
  match programLength with
  | 0 => []
  | L + 1 =>
    (asciiMin + (programNumber % (asciiRange : Int)).toNat)
      :: hexToProgramNum (programNumber / (asciiRange : Int)) L asciiRange asciiMin

/-- `hex_to_program` (generate.py lines 97-122): `int(hex_string, 16)` followed
by the division loop; `none` when the hex string does not parse. -/
def hex_to_program (hexString : String) (programLength asciiRange asciiMin : Nat) :
    Option (List Nat) :=
  (parseHex hexString).map
    (fun n => hexToProgramNum n programLength asciiRange asciiMin)

/-- Positional-power loop of `hex_to_program_slow` (generate.py lines 89-94):
digit at `position` is `(program_number // ascii_range ** position) % ascii_range`. -/
def hexToProgramSlowNum (programNumber : Int) (programLength asciiRange asciiMin : Nat) :
    List Nat :=
  (List.range programLength).map
    (fun position =>
      asciiMin + ((programNumber / (asciiRange : Int) ^ position) % (asciiRange : Int)).toNat)

/-- `hex_to_program_slow` (generate.py lines 67-94). -/
def hex_to_program_slow (hexString : String) (programLength asciiRange asciiMin : Nat) :
    Option (List Nat) :=
  (parseHex hexString).map
    (fun n => hexToProgramSlowNum n programLength asciiRange asciiMin)

/-- Accumulator loop of `program_to_hex` (generate.py lines 176-180): Horner's
rule over the reversed program.  `ord(char) - ascii_min` may be negative in
Python, which performs no validation here, so the accumulator is an integer. -/
def programNumber (program : List Nat) (asciiMin asciiRange : Nat) : Int :=
  program.reverse.foldl
    (fun acc c => acc * (asciiRange : Int) + ((c : Int) - (asciiMin : Int))) 0

/-- `program_to_hex` (generate.py lines 161-182): Horner accumulation then
`hex()`.  The Python function contains no validation and no raise. -/
def program_to_hex (program : List Nat) (asciiMin asciiRange : Nat) : String :=
  pythonHex (programNumber program asciiMin asciiRange)

/-- Loop of `program_to_hex_slow` (generate.py lines 147-156): validates each
character, raising `ValueError` naming the character and its position
(modelled as `Except.error (char, position)`), and otherwise accumulates
`char_index * ascii_range ** position`. -/
def programToHexSlowAux (asciiMin asciiMax asciiRange : Nat) :
    List Nat → Nat → Nat → Except (Nat × Nat) Nat
  | [], _, acc => Except.ok acc
  | c :: rest, position, acc =>
    if c < asciiMin ∨ asciiMax < c then Except.error (c, position)
    else
      programToHexSlowAux asciiMin asciiMax asciiRange rest (position + 1)
        (acc + (c - asciiMin) * asciiRange ^ position)

/-- `program_to_hex_slow` (generate.py lines 125-158). -/
def program_to_hex_slow (program : List Nat) (asciiMin asciiMax asciiRange : Nat) :
    Except (Nat × Nat) String :=
  (programToHexSlowAux asciiMin asciiMax asciiRange program 0 0).map
    (fun n => pythonHex (n : Int))

/-- `bytes.hex()` on one byte: two lowercase hexadecimal characters, zero
padded to width two. -/
def byteToHexChars (b : Nat) : List Char := [hexDigitChar (b / 16), hexDigitChar (b % 16)]

/-- `random_hex` (generate.py lines 209-211): `rng.bytes(bytes_needed).hex()`;
the random source is modelled by the list of drawn bytes. -/
def random_hex (drawnBytes : List Nat) : String :=
  String.mk ((drawnBytes.map byteToHexChars).flatten)

/-- Integer value of a byte string read big-endian, which is what
`int(b.hex(), 16)` yields. -/
def bytesVal (drawnBytes : List Nat) : Nat :=
  drawnBytes.foldl (fun acc b => acc * 256 + b) 0

/-- `ExecutionResult` (runner.py lines 8-39): the return code of the sandboxed
process plus its captured output byte streams. -/
structure ExecutionResult where
  returncode : Int
  stdout : List Nat
  stderr : List Nat
deriving DecidableEq

/-- `ExecutionResult.ok` (runner.py line 20): the process exited with status 0. -/
def ExecutionResult.ok (r : ExecutionResult) : Bool := r.returncode == 0

/-- `ExecutionResult.timed_out` (runner.py line 26): the return code equals
124, the sentinel exit status of the `timeout` wrapper. -/
def ExecutionResult.timed_out (r : ExecutionResult) : Bool := r.returncode == 124

/-- `ExecutionResult.success` (runner.py line 31): ok or timed out. -/
def ExecutionResult.success (r : ExecutionResult) : Bool := r.ok || r.timed_out

/-- `ExecutionResult.__bool__` (runner.py line 34): truthiness is `ok`. -/
def ExecutionResult.toBool (r : ExecutionResult) : Bool := r.ok

/-- The dictionary comprehension of `Experiment.run` (experiment.py line 89):
keep exactly the (hex, result) pairs whose result is a success. -/
def aggregate (results : List (String × ExecutionResult)) :
    List (String × ExecutionResult) :=
  results.filter (fun r => r.2.success)

/-- Sampling loop of `Experiment.run` (experiment.py lines 50-64): draw random
hex strings, decode each fresh one, and stop once `n_samples` unique hex keys
have been collected.  The random source is modelled by the list of byte draws;
the result is `none` when the draws run out with the loop still going, and the
code performs no precondition check of any kind before or during the loop. -/
def samplePhase (nSamples programLength asciiRange asciiMin : Nat) :
    List (List Nat) → List (String × Option (List Nat)) →
      Option (List (String × Option (List Nat)))
  | draws, acc =>
    if acc.length < nSamples then
      match draws with
      | [] => none
      | d :: rest =>
        if (acc.map Prod.fst).contains (random_hex d) then
          samplePhase nSamples programLength asciiRange asciiMin rest acc
        else
          samplePhase nSamples programLength asciiRange asciiMin rest
            (acc ++ [(random_hex d,
              hex_to_program (random_hex d) programLength asciiRange asciiMin)])
    else some acc

theorem hexDigitVal_hexDigitChar : ∀ d : Nat, d < 16 → hexDigitVal (hexDigitChar d) = some d := by
  decide

theorem natHexDigitsAux_zero (fuel : Nat) : natHexDigitsAux fuel 0 = [] := by
  cases fuel <;> rfl

theorem natHexDigitsAux_lt16 : ∀ fuel n d, d ∈ natHexDigitsAux fuel n → d < 16 := by
  intro fuel
  induction fuel with
  | zero => intro n d h; simp [natHexDigitsAux] at h
  | succ fuel ih =>
    intro n d h
    cases n with
    | zero => simp [natHexDigitsAux] at h
    | succ m =>
      rw [natHexDigitsAux] at h
      rcases List.mem_cons.mp h with h1 | h2
      · subst h1; exact Nat.mod_lt _ (by omega)
      · exact ih _ _ h2

def hexValLE : List Nat → Nat
  | [] => 0
  | d :: rest => d + 16 * hexValLE rest

theorem hexValLE_natHexDigitsAux : ∀ fuel n, n ≤ fuel → hexValLE (natHexDigitsAux fuel n) = n := by
  intro fuel
  induction fuel with
  | zero =>
    intro n h
    have hz : n = 0 := by omega
    subst hz; rfl
  | succ fuel ih =>
    intro n h
    cases n with
    | zero => rw [natHexDigitsAux_zero]; rfl
    | succ m =>
      rw [natHexDigitsAux, hexValLE, ih ((m + 1) / 16) (by omega)]
      omega

theorem parseHexDigitsAux_map (ds : List Nat) : ∀ acc : Nat, (∀ d ∈ ds, d < 16) →
    parseHexDigitsAux acc (ds.map hexDigitChar)
      = some (ds.foldl (fun a d => a * 16 + d) acc) := by
  induction ds with
  | nil => intro acc _; rfl
  | cons d rest ih =>
    intro acc h
    simp only [List.map_cons, parseHexDigitsAux,
      hexDigitVal_hexDigitChar d (h d (by simp)), List.foldl_cons]
    exact ih _ (fun x hx => h x (by simp [hx]))

theorem foldl_reverse_hexValLE (ds : List Nat) : ∀ acc : Nat,
    ds.reverse.foldl (fun a d => a * 16 + d) acc = acc * 16 ^ ds.length + hexValLE ds := by
  induction ds with
  | nil => intro acc; simp [hexValLE]
  | cons d rest ih =>
    intro acc
    simp only [List.reverse_cons, List.foldl_append, List.foldl_cons, List.foldl_nil, ih,
      hexValLE, List.length_cons]
    ring

theorem parseHexNat_ne_nil (l : List Char) (h : l ≠ []) :
    parseHexNat l = parseHexDigitsAux 0 l := by
  cases l with
  | nil => exact absurd rfl h
  | cons c cs => rfl

theorem natHexDigits_ne_nil (n : Nat) (h : n ≠ 0) : natHexDigits n ≠ [] := by
  cases n with
  | zero => exact absurd rfl h
  | succ m => simp [natHexDigits, natHexDigitsAux]
theorem parseHexBody_marker (l : List Char) : parseHexBody ('0' :: 'x' :: l) = parseHexNat l := by
  simp [parseHexBody]

theorem parseHex_mk_neg (l : List Char) :
    parseHex (String.mk ('-' :: '0' :: 'x' :: l))
      = Option.map (fun v : Nat => -(v : Int)) (parseHexNat l) := by
  simp [parseHex, parseHexBody_marker]

theorem parseHex_mk_nonneg (l : List Char) :
    parseHex (String.mk ('0' :: 'x' :: l))
      = Option.map (fun v : Nat => (v : Int)) (parseHexNat l) := by
  simp [parseHex, parseHexBody_marker]
theorem natHexDigits_lt16 (n : Nat) : ∀ d ∈ natHexDigits n, d < 16 :=
  fun d hd => natHexDigitsAux_lt16 n n d hd

theorem hexValLE_natHexDigits (n : Nat) : hexValLE (natHexDigits n) = n :=
  hexValLE_natHexDigitsAux n n (le_refl n)

theorem parseHexNat_natToHexChars (n : Nat) : parseHexNat (natToHexChars n) = some n := by
  by_cases h : n = 0
  · subst h; decide
  · rw [natToHexChars, if_neg h]
    rw [parseHexNat_ne_nil _ (by
      simp only [ne_eq, List.map_eq_nil_iff, List.reverse_eq_nil_iff]
      exact natHexDigits_ne_nil n h)]
    rw [parseHexDigitsAux_map ((natHexDigits n).reverse) 0
      (fun d hd => natHexDigits_lt16 n d (List.mem_reverse.mp hd))]
    rw [foldl_reverse_hexValLE, hexValLE_natHexDigits]
    simp

theorem parseHex_pythonHex (n : Int) : parseHex (pythonHex n) = some n := by
  by_cases hn : n < 0
  · rw [pythonHex, if_pos hn, parseHex_mk_neg, parseHexNat_natToHexChars]
    simp only [Option.map_some']
    congr 1
    omega
  · rw [pythonHex, if_neg hn, parseHex_mk_nonneg, parseHexNat_natToHexChars]
    simp only [Option.map_some']
    congr 1
    omega

theorem programNumber_cons (c : Nat) (p : List Nat) (asciiMin asciiRange : Nat) :
    programNumber (c :: p) asciiMin asciiRange
      = programNumber p asciiMin asciiRange * asciiRange + ((c : Int) - asciiMin) := by
  simp [programNumber, List.reverse_cons, List.foldl_append]

theorem emod_mul_add (pr d R : Int) (h0 : 0 ≤ d) (h1 : d < R) : (pr * R + d) % R = d := by
  rw [add_comm, Int.add_mul_emod_self]
  exact Int.emod_eq_of_lt h0 h1

theorem ediv_mul_add (pr d R : Int) (h0 : 0 ≤ d) (h1 : d < R) : (pr * R + d) / R = pr := by
  rw [add_comm, Int.add_mul_ediv_right _ _ (by omega : R ≠ 0),
    Int.ediv_eq_zero_of_lt h0 h1, zero_add]

theorem hexToProgramNum_programNumber (asciiMin asciiRange : Nat) :
    ∀ p : List Nat, (∀ c ∈ p, asciiMin ≤ c ∧ c < asciiMin + asciiRange) →
      hexToProgramNum (programNumber p asciiMin asciiRange) p.length asciiRange asciiMin = p := by
  intro p
  induction p with
  | nil => intro _; rfl
  | cons c rest ih =>
    intro h
    have hc := h c (by simp)
    have hrest : ∀ x ∈ rest, asciiMin ≤ x ∧ x < asciiMin + asciiRange :=
      fun x hx => h x (by simp [hx])
    rw [programNumber_cons, List.length_cons, hexToProgramNum,
      emod_mul_add _ _ _ (by omega) (by omega), ediv_mul_add _ _ _ (by omega) (by omega),
      ih hrest]
    congr 1
    omega

theorem programNumber_hexToProgramNum (asciiRange asciiMin : Nat) (hr : 1 ≤ asciiRange) :
    ∀ (L : Nat) (n : Int), 0 ≤ n → n < (asciiRange : Int) ^ L →
      programNumber (hexToProgramNum n L asciiRange asciiMin) asciiMin asciiRange = n := by
  intro L
  induction L with
  | zero =>
    intro n h0 h1
    rw [pow_zero] at h1
    have hn : n = 0 := by omega
    subst hn; rfl
  | succ L ih =>
    intro n h0 h1
    have hR : (0 : Int) < asciiRange := by exact_mod_cast hr
    rw [hexToProgramNum, programNumber_cons]
    have hm0 := Int.emod_nonneg n (by omega : (asciiRange : Int) ≠ 0)
    have hd0 : 0 ≤ n / (asciiRange : Int) := Int.ediv_nonneg h0 (le_of_lt hR)
    have hdlt : n / (asciiRange : Int) < (asciiRange : Int) ^ L := by
      rw [Int.ediv_lt_iff_lt_mul hR]
      rw [pow_succ] at h1
      exact h1
    rw [ih (n / asciiRange) hd0 hdlt]
    have hcast : ((asciiMin + (n % (asciiRange : Int)).toNat : Nat) : Int)
        = (asciiMin : Int) + n % (asciiRange : Int) := by
      push_cast
      omega
    rw [hcast]
    have e := Int.ediv_add_emod n (asciiRange : Int)
    linear_combination e

theorem int_ediv_ediv (a : Int) {b c : Int} (hb : 0 < b) (hc : 0 < c) :
    a / b / c = a / (b * c) := by
  symm
  have hbc : 0 < b * c := mul_pos hb hc
  have e3 := Int.emod_nonneg a (by omega : b ≠ 0)
  have e6 := Int.emod_nonneg (a / b) (by omega : c ≠ 0)
  have e1 := Int.emod_lt_of_pos a hb
  have e2 := Int.emod_lt_of_pos (a / b) hc
  have e4 := Int.emod_add_ediv a b
  have e5 := Int.emod_add_ediv (a / b) c
  have h1 : 0 ≤ a % b + b * (a / b % c) := by positivity
  have h2 : a % b + b * (a / b % c) < b * c := by nlinarith
  have h3 : (a % b + b * (a / b % c)) + (b * c) * (a / b / c) = a := by
    linear_combination e4 + b * e5
  exact ((Int.ediv_emod_unique hbc).mpr ⟨h3, h1, h2⟩).1

theorem hexToProgramSlowNum_eq (asciiRange asciiMin : Nat) (hr : 1 ≤ asciiRange) :
    ∀ (L : Nat) (n : Int),
      hexToProgramSlowNum n L asciiRange asciiMin = hexToProgramNum n L asciiRange asciiMin := by
  intro L
  induction L with
  | zero => intro n; rfl
  | succ L ih =>
    intro n
    have hR : (0 : Int) < asciiRange := by exact_mod_cast hr
    rw [hexToProgramSlowNum, List.range_succ_eq_map, List.map_cons, List.map_map,
      hexToProgramNum, ← ih (n / asciiRange), hexToProgramSlowNum]
    congr 1
    · rw [pow_zero, Int.ediv_one]
    · congr 1
      funext i
      simp only [Function.comp_apply]
      rw [int_ediv_ediv n hR (pow_pos hR i), ← pow_succ']

theorem hexToProgramNum_zero (asciiRange asciiMin : Nat) :
    ∀ L : Nat, hexToProgramNum 0 L asciiRange asciiMin = List.replicate L asciiMin := by
  intro L
  induction L with
  | zero => rfl
  | succ L ih =>
    rw [hexToProgramNum, List.replicate_succ]
    simp [ih]

theorem hexToProgramNum_top (asciiRange asciiMin : Nat) (hr : 2 ≤ asciiRange) :
    ∀ L : Nat, hexToProgramNum ((asciiRange : Int) ^ L - 1) L asciiRange asciiMin
      = List.replicate L (asciiMin + asciiRange - 1) := by
  intro L
  induction L with
  | zero => rfl
  | succ L ih =>
    have hR : (0 : Int) < asciiRange := by exact_mod_cast (by omega : 0 < asciiRange)
    have hP : (0 : Int) < (asciiRange : Int) ^ L := pow_pos hR L
    have hsplit : (asciiRange : Int) ^ (L + 1) - 1
        = ((asciiRange : Int) - 1) + (asciiRange : Int) * ((asciiRange : Int) ^ L - 1) := by
      ring
    rw [hexToProgramNum, List.replicate_succ]
    congr 1
    · rw [hsplit, Int.add_mul_emod_self_left,
        Int.emod_eq_of_lt (by omega) (by omega)]
      have hcR : (2 : Int) ≤ (asciiRange : Int) := by exact_mod_cast hr
      omega
    · rw [hsplit, Int.add_mul_ediv_left _ _ (by omega : (asciiRange : Int) ≠ 0),
        Int.ediv_eq_zero_of_lt (by omega) (by omega), zero_add, ih]

theorem ediv_emod_pow (asciiRange L : Nat) (hr : 1 ≤ asciiRange) (x : Int) :
    x / (asciiRange : Int) % (asciiRange : Int) ^ L
      = x % (asciiRange : Int) ^ (L + 1) / (asciiRange : Int) % (asciiRange : Int) ^ L := by
  have hR : (0 : Int) < asciiRange := by exact_mod_cast hr
  conv_lhs => rw [← Int.emod_add_ediv x ((asciiRange : Int) ^ (L + 1))]
  rw [show (asciiRange : Int) ^ (L + 1) * (x / (asciiRange : Int) ^ (L + 1))
      = (asciiRange : Int) * ((asciiRange : Int) ^ L * (x / (asciiRange : Int) ^ (L + 1))) by
    ring]
  rw [Int.add_mul_ediv_left _ _ (by omega : (asciiRange : Int) ≠ 0),
    Int.add_mul_emod_self_left]

theorem hexToProgramNum_congr (asciiRange asciiMin : Nat) (hr : 1 ≤ asciiRange) :
    ∀ (L : Nat) (n m : Int),
      n % (asciiRange : Int) ^ L = m % (asciiRange : Int) ^ L →
      hexToProgramNum n L asciiRange asciiMin = hexToProgramNum m L asciiRange asciiMin := by
  intro L
  induction L with
  | zero => intro n m _; rfl
  | succ L ih =>
    intro n m hnm
    have hdvd : (asciiRange : Int) ∣ (asciiRange : Int) ^ (L + 1) :=
      dvd_pow_self _ (by omega)
    have hhead : n % (asciiRange : Int) = m % (asciiRange : Int) := by
      rw [← Int.emod_emod_of_dvd n hdvd, ← Int.emod_emod_of_dvd m hdvd, hnm]
    have htail := ih (n / asciiRange) (m / asciiRange) (by
      rw [ediv_emod_pow asciiRange L hr n, ediv_emod_pow asciiRange L hr m, hnm])
    rw [hexToProgramNum, hexToProgramNum, hhead, htail]

def hornerNat (asciiMin asciiRange : Nat) : List Nat → Nat
  | [] => 0
  | c :: rest => (c - asciiMin) + hornerNat asciiMin asciiRange rest * asciiRange

theorem hornerNat_cast (asciiMin asciiRange : Nat) :
    ∀ p : List Nat, (∀ c ∈ p, asciiMin ≤ c) →
      ((hornerNat asciiMin asciiRange p : Nat) : Int) = programNumber p asciiMin asciiRange := by
  intro p
  induction p with
  | nil => intro _; rfl
  | cons c rest ih =>
    intro h
    have hc := h c (by simp)
    rw [programNumber_cons, hornerNat, ← ih (fun x hx => h x (by simp [hx]))]
    push_cast
    have hsub : ((c - asciiMin : Nat) : Int) = (c : Int) - asciiMin := by omega
    rw [hsub]
    ring

theorem programToHexSlowAux_ok (asciiMin asciiMax asciiRange : Nat) :
    ∀ p : List Nat, (∀ c ∈ p, asciiMin ≤ c ∧ c ≤ asciiMax) →
      ∀ position acc : Nat,
        programToHexSlowAux asciiMin asciiMax asciiRange p position acc
          = Except.ok (acc + hornerNat asciiMin asciiRange p * asciiRange ^ position) := by
  intro p
  induction p with
  | nil => intro _ position acc; simp [programToHexSlowAux, hornerNat]
  | cons c rest ih =>
    intro h position acc
    have hc := h c (by simp)
    rw [programToHexSlowAux, if_neg (by omega),
      ih (fun x hx => h x (by simp [hx])) (position + 1), hornerNat]
    congr 1
    ring

theorem programToHexSlowAux_error (asciiMin asciiMax asciiRange : Nat) :
    ∀ (p : List Nat) (i : Nat) (hi : i < p.length),
      (p.get ⟨i, hi⟩ < asciiMin ∨ asciiMax < p.get ⟨i, hi⟩) →
      (∀ j (hj : j < p.length), j < i → asciiMin ≤ p.get ⟨j, hj⟩ ∧ p.get ⟨j, hj⟩ ≤ asciiMax) →
      ∀ position acc : Nat,
        programToHexSlowAux asciiMin asciiMax asciiRange p position acc
          = Except.error (p.get ⟨i, hi⟩, position + i) := by
  intro p
  induction p with
  | nil => intro i hi; exact absurd hi (by simp)
  | cons c rest ih =>
    intro i hi hbad hgood position acc
    cases i with
    | zero =>
      have hbad2 : c < asciiMin ∨ asciiMax < c := hbad
      rw [programToHexSlowAux, if_pos hbad2]
      rfl
    | succ i2 =>
      have hc : asciiMin ≤ c ∧ c ≤ asciiMax := by
        have h0 := hgood 0 (by simp) (by omega)
        exact h0
      rw [programToHexSlowAux, if_neg (by omega)]
      rw [ih i2 (by simpa using hi) hbad
        (fun j hj hlt => hgood (j + 1) (by simpa using hj) (by omega))
        (position + 1) (acc + (c - asciiMin) * asciiRange ^ position)]
      congr 2
      omega

theorem parseHexDigitsAux_bytes (drawnBytes : List Nat) :
    ∀ acc : Nat, (∀ b ∈ drawnBytes, b < 256) →
      parseHexDigitsAux acc ((drawnBytes.map byteToHexChars).flatten)
        = some (drawnBytes.foldl (fun a b => a * 256 + b) acc) := by
  induction drawnBytes with
  | nil => intro acc _; rfl
  | cons b rest ih =>
    intro acc h
    have hb := h b (by simp)
    simp only [List.map_cons, List.flatten_cons, byteToHexChars, List.cons_append,
      List.nil_append, parseHexDigitsAux,
      hexDigitVal_hexDigitChar (b / 16) (by omega),
      hexDigitVal_hexDigitChar (b % 16) (by omega)]
    rw [show (acc * 16 + b / 16) * 16 + b % 16 = acc * 256 + b by omega]
    exact ih _ (fun x hx => h x (by simp [hx]))

theorem natHexDigitsAux_last : ∀ fuel n : Nat, n ≠ 0 → n ≤ fuel →
    ∃ ds d, natHexDigitsAux fuel n = ds ++ [d] ∧ d ≠ 0 ∧ d < 16 := by
  intro fuel
  induction fuel with
  | zero => intro n h0 h1; omega
  | succ fuel ih =>
    intro n h0 h1
    cases n with
    | zero => exact absurd rfl h0
    | succ m =>
      rw [natHexDigitsAux]
      by_cases hq : (m + 1) / 16 = 0
      · refine ⟨[], (m + 1) % 16, ?_, by omega, by omega⟩
        rw [hq, natHexDigitsAux_zero]
        rfl
      · obtain ⟨ds, d, heq, hd0, hd16⟩ := ih ((m + 1) / 16) hq (by omega)
        exact ⟨(m + 1) % 16 :: ds, d, by rw [heq]; rfl, hd0, hd16⟩

/-- Lowercase hexadecimal digit character predicate (0-9 or a-f). -/
def isLowerHexDigit (c : Char) : Bool :=
  (48 ≤ c.toNat && c.toNat ≤ 57) || (97 ≤ c.toNat && c.toNat ≤ 102)

theorem isLowerHexDigit_hexDigitChar :
    ∀ d : Nat, d < 16 → isLowerHexDigit (hexDigitChar d) = true := by
  decide

theorem hexDigitChar_ne :
    ∀ d : Nat, d < 16 →
      hexDigitChar d ≠ '-' ∧ hexDigitChar d ≠ 'x' ∧ hexDigitChar d ≠ 'X' := by
  decide

theorem hexDigitChar_eq_zero_iff : ∀ d : Nat, d < 16 → (hexDigitChar d = '0' ↔ d = 0) := by
  decide

theorem natToHexChars_mem (n : Nat) : ∀ c ∈ natToHexChars n, isLowerHexDigit c = true := by
  intro c hc
  rw [natToHexChars] at hc
  by_cases h : n = 0
  · rw [if_pos h] at hc
    simp at hc
    subst hc
    decide
  · rw [if_neg h] at hc
    simp only [List.mem_map] at hc
    obtain ⟨d, hd, rfl⟩ := hc
    exact isLowerHexDigit_hexDigitChar d (natHexDigits_lt16 n d (List.mem_reverse.mp hd))

theorem natToHexChars_ne_nil (n : Nat) : natToHexChars n ≠ [] := by
  rw [natToHexChars]
  by_cases h : n = 0
  · rw [if_pos h]; simp
  · rw [if_neg h]
    simp only [ne_eq, List.map_eq_nil_iff, List.reverse_eq_nil_iff]
    exact natHexDigits_ne_nil n h

theorem natToHexChars_head (n : Nat) (h : n ≠ 0) : (natToHexChars n).head? ≠ some '0' := by
  obtain ⟨ds, d, heq, hd0, hd16⟩ := natHexDigitsAux_last n n h (le_refl n)
  rw [natToHexChars, if_neg h, show natHexDigits n = ds ++ [d] from heq,
    List.reverse_append]
  simp only [List.reverse_cons, List.reverse_nil, List.nil_append, List.map_cons,
    List.singleton_append, List.head?_cons, ne_eq, Option.some.injEq]
  intro hz
  exact hd0 ((hexDigitChar_eq_zero_iff d hd16).mp hz)

theorem natToHexChars_zero : natToHexChars 0 = ['0'] := rfl

theorem parseHex_mk_cons (c : Char) (rest : List Char) (h : ¬c = '-') :
    parseHex (String.mk (c :: rest))
      = Option.map (fun v : Nat => (v : Int)) (parseHexBody (c :: rest)) := by
  simp [parseHex, h]

theorem parseHexBody_no_marker (c0 c1 : Char) (rest : List Char)
    (h : ¬(c0 = '0' ∧ (c1 = 'x' ∨ c1 = 'X'))) :
    parseHexBody (c0 :: c1 :: rest) = parseHexNat (c0 :: c1 :: rest) := by
  simp [parseHexBody, h]

theorem random_hex_cons (b : Nat) (rest : List Nat) :
    random_hex (b :: rest)
      = String.mk (hexDigitChar (b / 16) :: hexDigitChar (b % 16)
          :: (rest.map byteToHexChars).flatten) := by
  simp [random_hex, byteToHexChars]

theorem parseHex_random_hex (drawnBytes : List Nat) (hne : drawnBytes ≠ [])
    (h : ∀ b ∈ drawnBytes, b < 256) :
    parseHex (random_hex drawnBytes) = some ((bytesVal drawnBytes : Nat) : Int) := by
  cases drawnBytes with
  | nil => exact absurd rfl hne
  | cons b rest =>
    have hb : b < 256 := h b (by simp)
    have h16a : b / 16 < 16 := by omega
    have h16b : b % 16 < 16 := by omega
    rw [random_hex_cons, parseHex_mk_cons _ _ (hexDigitChar_ne _ h16a).1,
      parseHexBody_no_marker _ _ _ (by
        intro hcontra
        rcases hcontra.2 with hx | hX
        · exact (hexDigitChar_ne _ h16b).2.1 hx
        · exact (hexDigitChar_ne _ h16b).2.2 hX),
      parseHexNat_ne_nil _ (by simp)]
    have hflat : hexDigitChar (b / 16) :: hexDigitChar (b % 16)
        :: (rest.map byteToHexChars).flatten
        = ((b :: rest).map byteToHexChars).flatten := by
      simp [byteToHexChars]
    rw [hflat, parseHexDigitsAux_bytes (b :: rest) 0 h]
    rfl

theorem random_hex_length (drawnBytes : List Nat) :
    (random_hex drawnBytes).data.length = 2 * drawnBytes.length := by
  induction drawnBytes with
  | nil => rfl
  | cons b rest ih =>
    rw [random_hex_cons]
    simp only [String.data] at ih ⊢
    simp only [random_hex] at ih
    simp [ih]
    omega

theorem random_hex_chars (drawnBytes : List Nat) (h : ∀ b ∈ drawnBytes, b < 256) :
    ∀ c ∈ (random_hex drawnBytes).data, isLowerHexDigit c = true := by
  intro c hc
  simp only [random_hex, String.data, List.mem_flatten, List.mem_map] at hc
  obtain ⟨l, ⟨b, hb, rfl⟩, hcl⟩ := hc
  have hb256 := h b hb
  simp only [byteToHexChars, List.mem_cons, List.mem_singleton] at hcl
  rcases hcl with rfl | hcl
  · exact isLowerHexDigit_hexDigitChar _ (by omega)
  · rcases hcl with rfl | hfalse
    · exact isLowerHexDigit_hexDigitChar _ (by omega)
    · simp at hfalse

theorem random_hex_no_marker (drawnBytes : List Nat) (hne : drawnBytes ≠ [])
    (h : ∀ b ∈ drawnBytes, b < 256) :
    (random_hex drawnBytes).data.take 2 ≠ ['0', 'x'] := by
  cases drawnBytes with
  | nil => exact absurd rfl hne
  | cons b rest =>
    have hb : b < 256 := h b (by simp)
    rw [random_hex_cons]
    intro hcontra
    simp only [String.data, List.take_succ_cons, List.cons.injEq] at hcontra
    exact (hexDigitChar_ne (b % 16) (by omega)).2.1 hcontra.2.1

/-- C1: the codec is a bijection with exact round-trips — decoding the encoding
of any length-L program over the alphabet [min, min+range-1] returns the
program, and encoding the decoding of any identifier in [0, range^L - 1]
returns the identifier, with no off-by-one drift at either boundary. -/
theorem c1_codec_bijection (programLength asciiRange asciiMin : Nat)
    (hr : 2 ≤ asciiRange) :
    (∀ p : List Nat, p.length = programLength →
        (∀ c ∈ p, asciiMin ≤ c ∧ c ≤ asciiMin + asciiRange - 1) →
        hex_to_program (program_to_hex p asciiMin asciiRange) programLength asciiRange asciiMin
          = some p)
  ∧ (∀ idNum : Nat, idNum ≤ asciiRange ^ programLength - 1 →
        Option.map (fun q => parseHex (program_to_hex q asciiMin asciiRange))
            (hex_to_program (pythonHex (idNum : Int)) programLength asciiRange asciiMin)
          = some (some (idNum : Int))) := by
  constructor
  · intro p hlen hp
    subst hlen
    rw [program_to_hex, hex_to_program, parseHex_pythonHex]
    simp only [Option.map_some']
    rw [hexToProgramNum_programNumber asciiMin asciiRange p
      (fun c hc => ⟨(hp c hc).1, by have := (hp c hc).2; omega⟩)]
  · intro idNum hid
    have hpow : 1 ≤ asciiRange ^ programLength := Nat.one_le_pow _ _ (by omega)
    have hlt : (idNum : Int) < (asciiRange : Int) ^ programLength := by
      have hn : idNum < asciiRange ^ programLength := by omega
      exact_mod_cast hn
    rw [hex_to_program, parseHex_pythonHex]
    simp only [Option.map_some']
    rw [program_to_hex,
      programNumber_hexToProgramNum asciiRange asciiMin (by omega) programLength
        (idNum : Int) (by positivity) hlt,
      parseHex_pythonHex]

/-- C1 witness: the round trips at L = 2, range = 3, min = 65, program "BA",
identifier 8 = 3^2 - 1. -/
theorem c1_codec_bijection_witness :
    hex_to_program (program_to_hex [66, 65] 65 3) 2 3 65 = some [66, 65]
  ∧ Option.map (fun q => parseHex (program_to_hex q 65 3))
        (hex_to_program (pythonHex (8 : Int)) 2 3 65) = some (some (8 : Int)) :=
  ⟨(c1_codec_bijection 2 3 65 (by decide)).1 [66, 65] (by decide) (by decide),
   (c1_codec_bijection 2 3 65 (by decide)).2 8 (by decide)⟩

/-- C2 counterexample: the shipped production encoder program_to_hex does not
raise on an out-of-range character — with min 32 and range 95 it silently
encodes the out-of-range character 31 to the hex string "-0x1" — while only the
slow variant raises the validation error carrying the character and its
position. -/
theorem c2_counterexample :
    program_to_hex [31] 32 95 = "-0x1"
  ∧ program_to_hex_slow [31] 32 126 95 = Except.error (31, 0) := by
  decide

/-- C2 amended: the validating encoder is program_to_hex_slow, not
program_to_hex — it succeeds on every all-in-range string, and on a string
with an out-of-range character it fails with the validation error carrying the
first offending character and its position; the fast program_to_hex performs
no validation at all. -/
theorem c2_validation (p : List Nat) (asciiMin asciiMax asciiRange : Nat) :
    ((∀ c ∈ p, asciiMin ≤ c ∧ c ≤ asciiMax) →
      program_to_hex_slow p asciiMin asciiMax asciiRange
        = Except.ok (pythonHex ((hornerNat asciiMin asciiRange p : Nat) : Int)))
  ∧ (∀ i (hi : i < p.length),
      (p.get ⟨i, hi⟩ < asciiMin ∨ asciiMax < p.get ⟨i, hi⟩) →
      (∀ j (hj : j < p.length), j < i →
        asciiMin ≤ p.get ⟨j, hj⟩ ∧ p.get ⟨j, hj⟩ ≤ asciiMax) →
      program_to_hex_slow p asciiMin asciiMax asciiRange
        = Except.error (p.get ⟨i, hi⟩, i)) := by
  constructor
  · intro h
    rw [program_to_hex_slow, programToHexSlowAux_ok _ _ _ p h 0 0]
    simp [Except.map]
  · intro i hi hbad hgood
    rw [program_to_hex_slow, programToHexSlowAux_error _ _ _ p i hi hbad hgood 0 0]
    simp [Except.map]

/-- C2 witness: on [65, 20] with bounds [32, 126] the slow encoder reports the
out-of-range character 20 at position 1. -/
theorem c2_validation_witness :
    program_to_hex_slow [65, 20] 32 126 95 = Except.error (20, 1) :=
  (c2_validation [65, 20] 32 126 95).2 1 (by decide) (by decide) (by decide)

/-- C3: outcome classification — ok iff return code 0, timed_out iff the
sentinel 124, success iff ok or timed_out, and every other non-zero return
code is failed on all three counts. -/
theorem c3_outcome_classification (r : ExecutionResult) :
    (r.ok = true ↔ r.returncode = 0)
  ∧ (r.timed_out = true ↔ r.returncode = 124)
  ∧ (r.success = true ↔ (r.ok = true ∨ r.timed_out = true))
  ∧ (r.returncode ≠ 0 → r.returncode ≠ 124 →
      r.ok = false ∧ r.timed_out = false ∧ r.success = false) := by
  refine ⟨?_, ?_, ?_, ?_⟩
  · simp [ExecutionResult.ok]
  · simp [ExecutionResult.timed_out]
  · simp [ExecutionResult.success]
  · intro h1 h2
    simp [ExecutionResult.ok, ExecutionResult.timed_out, ExecutionResult.success, h1, h2]

/-- C3 witness: return code 137 is classified as failed. -/
theorem c3_outcome_classification_witness :
    (ExecutionResult.mk 137 [] []).ok = false
  ∧ (ExecutionResult.mk 137 [] []).timed_out = false
  ∧ (ExecutionResult.mk 137 [] []).success = false :=
  (c3_outcome_classification ⟨137, [], []⟩).2.2.2 (by decide) (by decide)

/-- C4: the direct-division and positional-power codec variants agree
bit-for-bit — the two decoders agree on every hex string, and the two
encoders return the same hex value on every in-range program. -/
theorem c4_variant_agreement (hexString : String)
    (programLength asciiRange asciiMin : Nat) (hr : 2 ≤ asciiRange) :
    hex_to_program hexString programLength asciiRange asciiMin
      = hex_to_program_slow hexString programLength asciiRange asciiMin
  ∧ (∀ p : List Nat, (∀ c ∈ p, asciiMin ≤ c ∧ c ≤ asciiMin + asciiRange - 1) →
      program_to_hex_slow p asciiMin (asciiMin + asciiRange - 1) asciiRange
        = Except.ok (program_to_hex p asciiMin asciiRange)) := by
  constructor
  · rw [hex_to_program, hex_to_program_slow]
    cases hp : parseHex hexString with
    | none => rfl
    | some n =>
      simp only [Option.map_some']
      rw [hexToProgramSlowNum_eq asciiRange asciiMin (by omega) programLength n]
  · intro p hp
    rw [program_to_hex_slow, programToHexSlowAux_ok _ _ _ p hp 0 0, program_to_hex,
      ← hornerNat_cast asciiMin asciiRange p (fun c hc => (hp c hc).1)]
    simp [Except.map]

/-- C4 witness: agreement at hex string "0x1f" with L = 3, range = 3, min = 97,
and at the program [98, 97]. -/
theorem c4_variant_agreement_witness :
    hex_to_program "0x1f" 3 3 97 = hex_to_program_slow "0x1f" 3 3 97
  ∧ program_to_hex_slow [98, 97] 97 (97 + 3 - 1) 3
      = Except.ok (program_to_hex [98, 97] 97 3) :=
  ⟨(c4_variant_agreement "0x1f" 3 3 97 (by decide)).1,
   (c4_variant_agreement "0x1f" 3 3 97 (by decide)).2 [98, 97] (by decide)⟩

/-- C5 fails on the code: the sampling phase of Experiment.run has no
precondition check at all.  With n_samples = 3 demanded from a program space of
range^L = 2^1 = 2 programs, it raises no error before or during the loop —
drawing the bytes 0, 1, 2 it happily returns 3 distinct hex keys, two of which
("00" and "02") decode to the same program — and with fewer available draws it
simply keeps looping. -/
theorem c5_no_precondition_check :
    3 > 2 ^ 1
  ∧ samplePhase 3 1 2 32 [[0], [1], [2]] []
      = some [("00", some [32]), ("01", some [33]), ("02", some [32])]
  ∧ samplePhase 3 1 2 32 [[0], [1], [0]] [] = none := by
  decide

/-- C6: the coordinator returns exactly the (identifier, result) pairs whose
result is a success, each identifier still paired with its own originating
result, and no non-success pair survives. -/
theorem c6_aggregation (results : List (String × ExecutionResult))
    (pr : String × ExecutionResult) :
    pr ∈ aggregate results ↔ pr ∈ results ∧ pr.2.success = true := by
  simp [aggregate, List.mem_filter]

/-- C7: boundary values of decoding — identifier 0 decodes to chr(min) repeated
L times and identifier range^L - 1 decodes to chr(min + range - 1) repeated L
times. -/
theorem c7_boundary_values (programLength asciiRange asciiMin : Nat)
    (hL : 1 ≤ programLength) (hr : 2 ≤ asciiRange) :
    hex_to_program (pythonHex 0) programLength asciiRange asciiMin
      = some (List.replicate programLength asciiMin)
  ∧ hex_to_program (pythonHex ((asciiRange : Int) ^ programLength - 1))
        programLength asciiRange asciiMin
      = some (List.replicate programLength (asciiMin + asciiRange - 1)) := by
  constructor
  · rw [hex_to_program, parseHex_pythonHex]
    simp only [Option.map_some']
    rw [hexToProgramNum_zero asciiRange asciiMin programLength]
  · rw [hex_to_program, parseHex_pythonHex]
    simp only [Option.map_some']
    rw [hexToProgramNum_top asciiRange asciiMin hr programLength]

/-- C7 witness: the boundaries at L = 2, range = 3, min = 97. -/
theorem c7_boundary_values_witness :
    hex_to_program (pythonHex 0) 2 3 97 = some (List.replicate 2 97)
  ∧ hex_to_program (pythonHex ((3 : Int) ^ 2 - 1)) 2 3 97
      = some (List.replicate 2 (97 + 3 - 1)) :=
  c7_boundary_values 2 3 97 (by decide) (by decide)

/-- C8 counterexample: the sample generator random_hex emits plain bytes.hex()
strings — "00" for the single byte 0 — which are not 0x-prefixed and carry a
leading zero beyond what the value requires, so not every identifier string
the system produces has the claimed format (it still parses back exactly). -/
theorem c8_counterexample :
    random_hex [0] = "00"
  ∧ (random_hex [0]).data.take 2 ≠ ['0', 'x']
  ∧ (random_hex [0]).data.head? = some '0'
  ∧ parseHex (random_hex [0]) = some 0 := by
  decide

/-- C8 amended: identifiers presented through hex() — in particular every
program_to_hex output — are lowercase, 0x-prefixed, without leading zero
padding, and parse back to the exact integer; identifiers emitted by
random_hex are instead plain lowercase byte-hex strings of fixed width
2 * bytes_needed, unprefixed and zero padded, which also parse back to the
exact drawn integer. -/
theorem c8_identifier_representation :
    (∀ idNum : Nat, ∃ payload : List Char,
        (pythonHex (idNum : Int)).data = '0' :: 'x' :: payload
      ∧ payload ≠ []
      ∧ (∀ c ∈ payload, isLowerHexDigit c = true)
      ∧ (idNum ≠ 0 → payload.head? ≠ some '0')
      ∧ parseHex (pythonHex (idNum : Int)) = some (idNum : Int))
  ∧ (∀ (p : List Nat) (asciiMin asciiRange : Nat),
      parseHex (program_to_hex p asciiMin asciiRange)
        = some (programNumber p asciiMin asciiRange))
  ∧ (∀ drawnBytes : List Nat, drawnBytes ≠ [] → (∀ b ∈ drawnBytes, b < 256) →
        (random_hex drawnBytes).data.length = 2 * drawnBytes.length
      ∧ (∀ c ∈ (random_hex drawnBytes).data, isLowerHexDigit c = true)
      ∧ (random_hex drawnBytes).data.take 2 ≠ ['0', 'x']
      ∧ parseHex (random_hex drawnBytes) = some ((bytesVal drawnBytes : Nat) : Int)) := by
  refine ⟨?_, ?_, ?_⟩
  · intro idNum
    have hdata : (pythonHex (idNum : Int)).data = '0' :: 'x' :: natToHexChars idNum := by
      rw [pythonHex, if_neg (by omega)]
      simp
    exact ⟨natToHexChars idNum, hdata, natToHexChars_ne_nil idNum, natToHexChars_mem idNum,
      fun h0 => natToHexChars_head idNum h0, parseHex_pythonHex (idNum : Int)⟩
  · intro p asciiMin asciiRange
    rw [program_to_hex, parseHex_pythonHex]
  · intro drawnBytes hne hb
    exact ⟨random_hex_length drawnBytes, random_hex_chars drawnBytes hb,
      random_hex_no_marker drawnBytes hne hb, parseHex_random_hex drawnBytes hne hb⟩

/-- C8 witness: the encoder side at a concrete program and the sampler side at
the drawn bytes [0, 171]. -/
theorem c8_identifier_representation_witness :
    parseHex (program_to_hex [104, 105] 32 95) = some (programNumber [104, 105] 32 95)
  ∧ ((random_hex [0, 171]).data.length = 2 * ([0, 171] : List Nat).length
      ∧ (∀ c ∈ (random_hex [0, 171]).data, isLowerHexDigit c = true)
      ∧ (random_hex [0, 171]).data.take 2 ≠ ['0', 'x']
      ∧ parseHex (random_hex [0, 171]) = some ((bytesVal [0, 171] : Nat) : Int)) :=
  ⟨c8_identifier_representation.2.1 [104, 105] 32 95,
   c8_identifier_representation.2.2 [0, 171] (by decide) (by decide)⟩

/-- C9: decoding depends only on the identifier modulo range^L — identifiers
that are congruent decode to the same candidate program, so an identifier
outside [0, range^L - 1] is silently wrapped rather than rejected and two
distinct sampled hex identifiers can decode to the same program. -/
theorem c9_decode_mod_wrap (h1 h2 : String) (programLength asciiRange asciiMin : Nat)
    (hr : 2 ≤ asciiRange) (n1 n2 : Int)
    (hp1 : parseHex h1 = some n1) (hp2 : parseHex h2 = some n2)
    (hcong : n1 % (asciiRange : Int) ^ programLength
      = n2 % (asciiRange : Int) ^ programLength) :
    hex_to_program h1 programLength asciiRange asciiMin
      = hex_to_program h2 programLength asciiRange asciiMin := by
  rw [hex_to_program, hex_to_program, hp1, hp2]
  simp only [Option.map_some']
  rw [hexToProgramNum_congr asciiRange asciiMin (by omega) programLength n1 n2 hcong]

/-- C9 witness: the distinct drawable identifiers "00" and "02" decode to the
same program at L = 1, range = 2, min = 32. -/
theorem c9_decode_mod_wrap_witness :
    hex_to_program "00" 1 2 32 = hex_to_program "02" 1 2 32 :=
  c9_decode_mod_wrap "00" "02" 1 2 32 (by decide) 0 2 (by decide) (by decide) (by decide)

/-- C10: truthiness of an ExecutionResult is exactly ok (return code 0), so a
timed-out result with return code 124 is falsy even though its success
property is true — truthiness and success disagree on timeouts. -/
theorem c10_truthiness (r : ExecutionResult) :
    (r.toBool = true ↔ r.returncode = 0)
  ∧ r.toBool = r.ok
  ∧ (r.returncode = 124 → r.toBool = false ∧ r.success = true) := by
  refine ⟨?_, rfl, ?_⟩
  · simp [ExecutionResult.toBool, ExecutionResult.ok]
  · intro h124
    simp [ExecutionResult.toBool, ExecutionResult.ok, ExecutionResult.timed_out,
      ExecutionResult.success, h124]

/-- C10 witness: the timed-out return code 124 is falsy yet successful. -/
theorem c10_truthiness_witness :
    (ExecutionResult.mk 124 [] []).toBool = false
  ∧ (ExecutionResult.mk 124 [] []).success = true :=
  (c10_truthiness ⟨124, [], []⟩).2.2 (by decide)

end PybraryOfBabel
